import Mathlib

/- Verification development for the sneed database-wrapper layer.

The layer wraps an external embedded B-tree key/value engine. Rust sources
embedded here: src/lib.rs (rwtxn commit/abort, pending-write registration),
src/db/mod.rs and src/db/wrapper.rs (DbWrapper CRUD and iteration,
DatabaseUnique / DatabaseDup facades), src/db/error.rs (error taxonomy).

Storage-engine primitives (heed/LMDB) are an external collaborator, not part
of this repository; they are modelled from the spec (sections 3, 4.3, 4.4, 6,
8 and the glossary): a table is an ordered list of (key bytes, value bytes)
rows sorted by key and then by value, unique-key tables keep one row per key,
and cursor traversal modes walk that ordered sequence. Engine level I/O
faults are not modelled; fallibility from key/value codecs is. -/

namespace Sneed

/-- Byte strings, compared lexicographically (memcmp order, shorter prefix
first), as the engine's default comparator orders keys. -/
abbrev Bytes := List Nat

/-- Physical table contents: ordered rows of (key bytes, value bytes). -/
abbrev Table := List (Bytes × Bytes)

/-- Pluggable fallible byte codec for one key or value type, the
Encode/Decode capability of the spec (section 6, codec boundary). -/
structure Codec (α : Type) where
  encode : α → Except String Bytes
  decode : Bytes → Except String α

/-- Identity codec on raw byte strings; its encode and decode never fail. -/
def bytesCodec : Codec Bytes :=
  { encode := Except.ok, decode := Except.ok }

instance exceptDecEq {ε α : Type} [DecidableEq ε] [DecidableEq α] :
    DecidableEq (Except ε α)
  | .ok a, .ok b =>
    if h : a = b then .isTrue (by rw [h])
    else .isFalse (by intro hc; cases hc; exact h rfl)
  | .error a, .error b =>
    if h : a = b then .isTrue (by rw [h])
    else .isFalse (by intro hc; cases hc; exact h rfl)
  | .ok _, .error _ => .isFalse (by intro hc; cases hc)
  | .error _, .ok _ => .isFalse (by intro hc; cases hc)

/-- Keys of the rows of a table, in physical order. -/
def tableKeys (s : Table) : List Bytes := s.map (fun r => r.1)

/-- Values stored under one key, in physical (sorted-duplicates) order. -/
def dupValues (s : Table) (kb : Bytes) : List Bytes :=
  (s.filter (fun r => r.1 == kb)).map (fun r => r.2)

/-- Strict sorted-duplicates row order: by key bytes, then by value bytes
(spec glossary, sorted-duplicates). -/
def rowLt (a b : Bytes × Bytes) : Prop :=
  a.1 < b.1 ∨ (a.1 = b.1 ∧ a.2 < b.2)

instance rowLtDec : DecidableRel rowLt := fun a b => by
  unfold rowLt; infer_instance

/-- Well-formed duplicate-key table: rows strictly sorted by (key, value). -/
def DupWF (s : Table) : Prop := s.Pairwise rowLt

/-- Well-formed unique-key table: rows strictly sorted by key, so at most one
row per key. -/
def UniqueWF (s : Table) : Prop := s.Pairwise (fun a b => a.1 < b.1)

instance dupWFDec (s : Table) : Decidable (DupWF s) := by
  unfold DupWF; infer_instance

instance uniqueWFDec (s : Table) : Decidable (UniqueWF s) := by
  unfold UniqueWF; infer_instance

/-- Modelled from the spec: engine point lookup returns the value of the
first physical row with the given key bytes (for duplicate-key tables this is
the first duplicate in sorted order), or none when the key is absent. -/
def engineGet (s : Table) (kb : Bytes) : Option Bytes :=
  (s.find? (fun r => r.1 == kb)).map (fun r => r.2)

/-- Modelled from the spec: engine put on a unique-key table inserts the row
at its sorted position, replacing the row previously stored under the key. -/
def enginePutUnique : Table → Bytes → Bytes → Table
  | [], kb, vb => [(kb, vb)]
  | (k, v) :: rest, kb, vb =>
    if kb < k then (kb, vb) :: (k, v) :: rest
    else if kb = k then (kb, vb) :: rest
    else (k, v) :: enginePutUnique rest kb vb

/-- Modelled from the spec: engine put on a sorted-duplicates table inserts
the row at its (key, value)-sorted position, keeping previously stored
values of the key; a byte-identical row is stored only once. -/
def enginePutDup : Table → Bytes → Bytes → Table
  | [], kb, vb => [(kb, vb)]
  | (k, v) :: rest, kb, vb =>
    if rowLt (kb, vb) (k, v) then (kb, vb) :: (k, v) :: rest
    else if kb = k ∧ vb = v then (k, v) :: rest
    else (k, v) :: enginePutDup rest kb vb

/-- Modelled from the spec: engine delete removes every row with the given
key bytes and reports whether any existed. -/
def engineDelete (s : Table) (kb : Bytes) : Bool × Table :=
  (s.any (fun r => r.1 == kb), s.filter (fun r => !(r.1 == kb)))

/-- Modelled from the spec: the walk of the engine's next-no-duplicate
cursor step after a row of key cur has been yielded: skip every row whose
key is still cur, then yield the next row and continue from its key. -/
def moveBetweenKeysFrom (cur : Bytes) : Table → Table
  | [] => []
  | r :: rs =>
    if r.1 == cur then moveBetweenKeysFrom cur rs
    else r :: moveBetweenKeysFrom r.1 rs

/-- Modelled from the spec: cursor traversal in through-keys mode advances
once per distinct key, yielding the first physical row of each key group. -/
def moveBetweenKeys : Table → Table
  | [] => []
  | r :: rs => r :: moveBetweenKeysFrom r.1 rs

/-- Modelled from the spec: cursor traversal in through-duplicate-values mode
advances once per physical row, yielding every row including duplicates. -/
def moveThroughDuplicateValues (s : Table) : Table := s

/-- Range bound on one side, mirroring a bound of a Rust range over the key
type (or, instantiated at Bytes, an encoded bound). -/
inductive Bound (α : Type)
  | unbounded
  | included (a : α)
  | excluded (a : α)
deriving DecidableEq

/-- Does a key satisfy the start bound of a range. -/
def loSat : Bound Bytes → Bytes → Bool
  | .unbounded, _ => true
  | .included a, k => decide (a ≤ k)
  | .excluded a, k => decide (a < k)

/-- Does a key satisfy the end bound of a range. -/
def hiSat : Bound Bytes → Bytes → Bool
  | .unbounded, _ => true
  | .included b, k => decide (k ≤ b)
  | .excluded b, k => decide (k < b)

/-- Modelled from the spec: an engine range cursor visits exactly the rows
whose keys satisfy both encoded bounds, in physical order. -/
def engineRange (s : Table) (lo hi : Bound Bytes) : Table :=
  s.filter (fun r => loSat lo r.1 && hiSat hi r.1)

/- Heed-level operations: the engine operation together with the key/value
codec calls the heed library performs around it. Encoding or decoding
failure surfaces as the single engine-boundary error that the wrapper then
contextualizes. Modelled from the spec (section 6, storage engine and codec
boundaries); engine-level I/O faults are not modelled. -/

/-- Modelled from the spec: heed-level get encodes the key, looks it up, and
decodes the stored value if present. -/
def heedGet {K V : Type} (kc : Codec K) (dc : Codec V) (s : Table) (k : K) :
    Except String (Option V) :=
  match kc.encode k with
  | .error e => .error e
  | .ok kb =>
    match engineGet s kb with
    | none => .ok none
    | some vb =>
      match dc.decode vb with
      | .error e => .error e
      | .ok v => .ok (some v)

/-- Modelled from the spec: heed-level put on a unique-key table encodes key
and value and upserts the row. -/
def heedPutUnique {K V : Type} (kc : Codec K) (dc : Codec V) (s : Table)
    (k : K) (v : V) : Except String Table :=
  match kc.encode k with
  | .error e => .error e
  | .ok kb =>
    match dc.encode v with
    | .error e => .error e
    | .ok vb => .ok (enginePutUnique s kb vb)

/-- Modelled from the spec: heed-level put on a sorted-duplicates table
encodes key and value and inserts the row among the key's duplicates. -/
def heedPutDup {K V : Type} (kc : Codec K) (dc : Codec V) (s : Table)
    (k : K) (v : V) : Except String Table :=
  match kc.encode k with
  | .error e => .error e
  | .ok kb =>
    match dc.encode v with
    | .error e => .error e
    | .ok vb => .ok (enginePutDup s kb vb)

/-- Modelled from the spec: heed-level get-or-put writes with NO_OVERWRITE in
one atomic engine call; if the key already exists it decodes and returns the
pre-existing value and leaves the table unchanged, otherwise it inserts. -/
def heedGetOrPut {K V : Type} (kc : Codec K) (dc : Codec V) (s : Table)
    (k : K) (v : V) : Except String (Option V × Table) :=
  match kc.encode k with
  | .error e => .error e
  | .ok kb =>
    match dc.encode v with
    | .error e => .error e
    | .ok vb =>
      match engineGet s kb with
      | some pvb =>
        match dc.decode pvb with
        | .error e => .error e
        | .ok pv => .ok (some pv, s)
      | none => .ok (none, enginePutUnique s kb vb)

/-- Modelled from the spec: heed-level delete encodes the key and removes
every row stored under it, reporting whether any existed. -/
def heedDelete {K : Type} (kc : Codec K) (s : Table) (k : K) :
    Except String (Bool × Table) :=
  match kc.encode k with
  | .error e => .error e
  | .ok kb => .ok (engineDelete s kb)

/-- Encoding of one range bound, exactly the range_bound_bytes closure of
src/db/wrapper.rs (lines 509-519 and 563-573). -/
def encodeBound {K : Type} (kc : Codec K) : Bound K → Except String (Bound Bytes)
  | .unbounded => .ok .unbounded
  | .included k => (kc.encode k).map .included
  | .excluded k => (kc.encode k).map .excluded

/-- Modelled from the spec: heed-level range encodes the start bound, then
the end bound (failing on the first codec failure), and opens an engine range
cursor over the encoded bounds. -/
def heedRange {K : Type} (kc : Codec K) (s : Table) (lo hi : Bound K) :
    Except String Table :=
  match encodeBound kc lo with
  | .error e => .error e
  | .ok lo2 =>
    match encodeBound kc hi with
    | .error e => .error e
    | .ok hi2 => .ok (engineRange s lo2 hi2)

end Sneed

namespace Sneed.error

/-- Error of a fallible read, from src/db/error.rs (TryGet, lines 238-249):
database context plus the key bytes or the key-encode failure. -/
structure TryGet where
  db_name : String
  db_path : String
  key_bytes : Except String Bytes
  source : String
deriving DecidableEq

/-- Error of get, from src/db/error.rs (Get, lines 251-264): either the
underlying lookup failure or a logical missing value. -/
inductive Get
  | tryGet (e : TryGet)
  | missingValue (db_name : String) (db_path : String) (key_bytes : Bytes)
deriving DecidableEq

/-- Error of a write, from src/db/error.rs (Put, lines 137-151): database
context plus key and value bytes, each independently possibly replaced by its
encode failure. -/
structure Put where
  db_name : String
  db_path : String
  key_bytes : Except String Bytes
  value_bytes : Except String Bytes
  source : String
deriving DecidableEq

/-- Error of a delete, from src/db/error.rs (Delete, lines 26-37). -/
structure Delete where
  db_name : String
  db_path : String
  key_bytes : Except String Bytes
  source : String
deriving DecidableEq

/-- Error of reading one item of an iterator, from src/db/error.rs
(IterItem, lines 70-76). -/
structure IterItem where
  db_name : String
  db_path : String
  source : String
deriving DecidableEq

/-- Error initializing an iterator, from src/db/error.rs (IterInit,
lines 60-68). -/
structure IterInit where
  db_name : String
  db_path : String
  source : String
deriving DecidableEq

/-- Error initializing a duplicates iterator, from src/db/error.rs
(IterDuplicatesInit, lines 47-58). -/
structure IterDuplicatesInit where
  db_name : String
  db_path : String
  key_bytes : Except String Bytes
  source : String
deriving DecidableEq

/-- Error initializing a range iterator, from src/db/error.rs (RangeInit,
lines 203-222): it records, independently for each side, the encoded bound
bytes or that side's encode failure. -/
structure RangeInit where
  db_name : String
  db_path : String
  range_start_bytes : Except String (Bound Bytes)
  range_end_bytes : Except String (Bound Bytes)
  source : String
deriving DecidableEq

end Sneed.error

namespace Sneed

/-- Pending-write map insert, the HashMap insert semantics used by
rwtxn.pending_writes.insert in src (keyed by database name; inserting an
already-registered name replaces its sender and adds no entry). -/
def pwInsert (pw : List (String × Nat)) (n : String) (tx : Nat) :
    List (String × Nat) :=
  if pw.any (fun e => e.1 == n) then
    pw.map (fun e => if e.1 == n then (n, tx) else e)
  else pw ++ [(n, tx)]

/-- Pending-write map extend, the HashMap extend semantics used when a nested
write transaction commits into its parent (src/lib.rs line 168). -/
def pwExtend (pw adds : List (String × Nat)) : List (String × Nat) :=
  adds.foldl (fun acc e => pwInsert acc e.1 e.2) pw

/-- Write transaction, from src/lib.rs (rwtxn::RwTxn, lines 145-153): the
engine handle and path are dropped, keeping the pending-write bookkeeping;
parent_pending_writes is some p exactly for a nested write transaction. -/
structure RwTxn where
  parent_pending_writes : Option (List (String × Nat))
  pending_writes : List (String × Nat)
deriving DecidableEq

/-- Fresh root write transaction as env::Env::write_txn creates it
(src/lib.rs lines 356-371): no parent, empty pending-write set. -/
def RwTxn.root : RwTxn :=
  { parent_pending_writes := none, pending_writes := [] }

/-- Fresh nested write transaction as env::Env::nested_write_txn creates it
(src/lib.rs lines 334-354): parent pending-write set captured, own set
empty. -/
def RwTxn.nested (parent : List (String × Nat)) : RwTxn :=
  { parent_pending_writes := some parent, pending_writes := [] }

/-- Commit of a write transaction, from src/lib.rs (RwTxn::commit, lines
160-176), restricted to the successful engine commit: returns the
send_replace calls fired (name, sender of each notification sent) and, for a
nested transaction, the updated parent pending-write set it merged into
instead of firing. -/
def RwTxn.commit (txn : RwTxn) :
    List (String × Nat) × Option (List (String × Nat)) :=
  match txn.parent_pending_writes with
  | some parent => ([], some (pwExtend parent txn.pending_writes))
  | none => (txn.pending_writes, none)

/-- Abort of a write transaction, from src/lib.rs (RwTxn::abort, lines
156-158): the engine transaction is discarded and no notification fires. -/
def RwTxn.abort (_txn : RwTxn) : List (String × Nat) := []

/-- Database wrapper handle, from src/db/mod.rs (DbWrapper, lines 43-52) and
src/db/wrapper.rs (lines 20-29): table name, environment path, and the watch
channel sender (the engine table handle is the Table state passed to each
operation; the compile-time brand tag has no runtime content). -/
structure DbWrapper where
  name : String
  path : String
  watch : Nat
deriving DecidableEq

/-- Pending-write registration performed by every mutating DbWrapper
operation (for example src/db/mod.rs lines 414-417): insert this database's
watch sender under its name, idempotently per name. -/
def registerPendingWrite (txn : RwTxn) (db : DbWrapper) : RwTxn :=
  { txn with pending_writes := pwInsert txn.pending_writes db.name db.watch }

/-- Application of a sequence of mutating operations to a transaction, each
registering its database's pending write as in src. -/
def applyWrites (dbs : List DbWrapper) (txn : RwTxn) : RwTxn :=
  dbs.foldl registerPendingWrite txn

/-- Embeds DbWrapper::try_get (src/db/mod.rs lines 453-472, src/db/wrapper.rs
lines 656-675): delegate to the heed-level lookup and wrap its failure with
database context and the key bytes or their encode failure. -/
def DbWrapper.try_get {K V : Type} (db : DbWrapper) (kc : Codec K)
    (dc : Codec V) (s : Table) (k : K) : Except error.TryGet (Option V) :=
  match heedGet kc dc s k with
  | .ok r => .ok r
  | .error err =>
    .error { db_name := db.name, db_path := db.path,
             key_bytes := kc.encode k, source := err }

/-- Embeds DbWrapper::get (src/db/mod.rs lines 474-494, src/db/wrapper.rs
lines 677-697): try_get, then turn absence into Get::MissingValue by
re-encoding the key and unwrapping. The outer Except layer models the
unwrap: an error there is the panic of the unwrap at that construction
site. -/
def DbWrapper.get {K V : Type} (db : DbWrapper) (kc : Codec K) (dc : Codec V)
    (s : Table) (k : K) : Except String (Except error.Get V) :=
  match db.try_get kc dc s k with
  | .error e => .ok (.error (.tryGet e))
  | .ok (some v) => .ok (.ok v)
  | .ok none =>
    match kc.encode k with
    | .ok kb => .ok (.error (.missingValue db.name db.path kb))
    | .error e => .error e

/-- C10 helper: heed-level get can only report an absent key after the key
encoded successfully, since encoding is its first step. -/
theorem heedGet_ok_none_encode_ok {K V : Type} (kc : Codec K) (dc : Codec V)
    (s : Table) (k : K) (h : heedGet kc dc s k = .ok none) :
    ∃ kb, kc.encode k = .ok kb := by
  unfold heedGet at h
  cases henc : kc.encode k with
  | error e => rw [henc] at h; simp [Bind.bind, Except.bind] at h
  | ok kb => exact ⟨kb, rfl⟩

end Sneed

namespace Sneed

/-- Row decoding performed by heed iterators: decode key and value, mapping a
codec failure to the wrapper's IterItem error as the iterator adapters in
src/db/wrapper.rs do. -/
def decodeRow {K V : Type} (db : DbWrapper) (kc : Codec K) (dc : Codec V)
    (r : Bytes × Bytes) : Except error.IterItem (K × V) :=
  match kc.decode r.1, dc.decode r.2 with
  | .ok k, .ok v => .ok (k, v)
  | .error e, _ => .error { db_name := db.name, db_path := db.path, source := e }
  | .ok _, .error e => .error { db_name := db.name, db_path := db.path, source := e }

/-- Embeds DbWrapper::put_with_flags with empty flags on a unique-key table
(src/db/mod.rs lines 387-419, src/db/wrapper.rs lines 442-474): heed-level
upsert, wrap failure with key and value bytes context, then register the
pending write. -/
def DbWrapper.put_with_flags_unique {K V : Type} (db : DbWrapper)
    (kc : Codec K) (dc : Codec V) (s : Table) (txn : RwTxn) (k : K) (v : V) :
    Except error.Put (Table × RwTxn) :=
  match heedPutUnique kc dc s k v with
  | .ok s2 => .ok (s2, registerPendingWrite txn db)
  | .error err =>
    .error { db_name := db.name, db_path := db.path,
             key_bytes := kc.encode k, value_bytes := dc.encode v,
             source := err }

/-- Embeds DbWrapper::put_with_flags with empty flags on a sorted-duplicates
table (same source lines; the DUP_SORT table mode is fixed at creation by
DatabaseDup::create, src/db/mod.rs lines 941-956). -/
def DbWrapper.put_with_flags_dup {K V : Type} (db : DbWrapper)
    (kc : Codec K) (dc : Codec V) (s : Table) (txn : RwTxn) (k : K) (v : V) :
    Except error.Put (Table × RwTxn) :=
  match heedPutDup kc dc s k v with
  | .ok s2 => .ok (s2, registerPendingWrite txn db)
  | .error err =>
    .error { db_name := db.name, db_path := db.path,
             key_bytes := kc.encode k, value_bytes := dc.encode v,
             source := err }

/-- Embeds DbWrapper::try_put (src/db/mod.rs lines 500-530, src/db/wrapper.rs
lines 703-733): one atomic heed get_or_put with NO_OVERWRITE, wrap failure
with key and value context, register the pending write. -/
def DbWrapper.try_put {K V : Type} (db : DbWrapper) (kc : Codec K)
    (dc : Codec V) (s : Table) (txn : RwTxn) (k : K) (v : V) :
    Except error.Put (Option V × Table × RwTxn) :=
  match heedGetOrPut kc dc s k v with
  | .ok (prev, s2) => .ok (prev, s2, registerPendingWrite txn db)
  | .error err =>
    .error { db_name := db.name, db_path := db.path,
             key_bytes := kc.encode k, value_bytes := dc.encode v,
             source := err }

/-- Embeds DbWrapper::delete (src/db/mod.rs lines 133-156, src/db/wrapper.rs
lines 113-136): heed-level delete of every row under the key, wrap failure
with key context, register the pending write. -/
def DbWrapper.delete {K : Type} (db : DbWrapper) (kc : Codec K) (s : Table)
    (txn : RwTxn) (k : K) : Except error.Delete (Bool × Table × RwTxn) :=
  match heedDelete kc s k with
  | .ok (b, s2) => .ok (b, s2, registerPendingWrite txn db)
  | .error err =>
    .error { db_name := db.name, db_path := db.path,
             key_bytes := kc.encode k, source := err }

/-- Embeds DbWrapper::get_duplicates (src/db/mod.rs lines 204-244,
src/db/wrapper.rs lines 184-224): position on the key and yield only the
values of its duplicate rows in physical order; key-encode failure is an
IterDuplicatesInit error carrying the encode failure. -/
def DbWrapper.get_duplicates {K V : Type} (db : DbWrapper) (kc : Codec K)
    (dc : Codec V) (s : Table) (k : K) :
    Except error.IterDuplicatesInit (List (Except error.IterItem V)) :=
  match kc.encode k with
  | .error e =>
    .error { db_name := db.name, db_path := db.path,
             key_bytes := .error e, source := e }
  | .ok kb =>
    .ok ((s.filter (fun r => r.1 == kb)).map (fun r =>
      match decodeRow db kc dc r with
      | .ok kv => .ok kv.2
      | .error e => .error e))

/-- Embeds DbWrapper::iter_through_duplicate_values (src/db/wrapper.rs lines
227-260): every physical row in order, each lazily decoded and fallible. -/
def DbWrapper.iter_through_duplicate_values {K V : Type} (db : DbWrapper)
    (kc : Codec K) (dc : Codec V) (s : Table) :
    Except error.IterInit (List (Except error.IterItem (K × V))) :=
  .ok ((moveThroughDuplicateValues s).map (decodeRow db kc dc))

/-- Embeds DbWrapper::iter_through_keys (src/db/wrapper.rs lines 263-295):
one row per distinct key, first duplicate only. -/
def DbWrapper.iter_through_keys {K V : Type} (db : DbWrapper)
    (kc : Codec K) (dc : Codec V) (s : Table) :
    Except error.IterInit (List (Except error.IterItem (K × V))) :=
  .ok ((moveBetweenKeys s).map (decodeRow db kc dc))

/-- Embeds DbWrapper::iter_keys_unique (src/db/wrapper.rs lines 332-363):
like through-keys but yielding only the decoded key; values stay lazily
undecoded. -/
def DbWrapper.iter_keys_unique {K : Type} (db : DbWrapper) (kc : Codec K)
    (s : Table) : Except error.IterInit (List (Except error.IterItem K)) :=
  .ok ((moveBetweenKeys s).map (fun r =>
    match kc.decode r.1 with
    | .ok k => .ok k
    | .error e => .error { db_name := db.name, db_path := db.path, source := e }))

/-- Embeds DbWrapper::rev_iter_through_keys (src/db/wrapper.rs lines
622-654): reverse traversal, one row per distinct key (the last duplicate of
each key, as the engine's previous-no-duplicate cursor step lands on it). -/
def DbWrapper.rev_iter_through_keys {K V : Type} (db : DbWrapper)
    (kc : Codec K) (dc : Codec V) (s : Table) :
    Except error.IterInit (List (Except error.IterItem (K × V))) :=
  .ok ((moveBetweenKeys s.reverse).map (decodeRow db kc dc))

/-- Embeds DbWrapper::range_through_duplicate_values (src/db/wrapper.rs lines
477-529): heed-level range over the bounds; on initialization failure build
the RangeInit error, re-encoding each side's bound independently. -/
def DbWrapper.range_through_duplicate_values {K V : Type} (db : DbWrapper)
    (kc : Codec K) (dc : Codec V) (s : Table) (lo hi : Bound K) :
    Except error.RangeInit (List (Except error.IterItem (K × V))) :=
  match heedRange kc s lo hi with
  | .ok rows => .ok ((moveThroughDuplicateValues rows).map (decodeRow db kc dc))
  | .error err =>
    .error { db_name := db.name, db_path := db.path,
             range_start_bytes := encodeBound kc lo,
             range_end_bytes := encodeBound kc hi,
             source := err }

/-- Embeds DbWrapper::range_through_keys (src/db/wrapper.rs lines 532-583):
heed-level range, then through-keys traversal; same RangeInit error path. -/
def DbWrapper.range_through_keys {K V : Type} (db : DbWrapper) (kc : Codec K)
    (dc : Codec V) (s : Table) (lo hi : Bound K) :
    Except error.RangeInit (List (Except error.IterItem (K × V))) :=
  match heedRange kc s lo hi with
  | .ok rows => .ok ((moveBetweenKeys rows).map (decodeRow db kc dc))
  | .error err =>
    .error { db_name := db.name, db_path := db.path,
             range_start_bytes := encodeBound kc lo,
             range_end_bytes := encodeBound kc hi,
             source := err }

/-- Embeds DatabaseUnique::put (src/db/mod.rs lines 780-794): delegate to
put_with_flags with empty flags on the unique-key table. -/
def DatabaseUnique.put {K V : Type} (db : DbWrapper) (kc : Codec K)
    (dc : Codec V) (s : Table) (txn : RwTxn) (k : K) (v : V) :
    Except error.Put (Table × RwTxn) :=
  DbWrapper.put_with_flags_unique db kc dc s txn k v

/-- Embeds DatabaseUnique::try_put (src/db/mod.rs lines 796-812). -/
def DatabaseUnique.try_put {K V : Type} (db : DbWrapper) (kc : Codec K)
    (dc : Codec V) (s : Table) (txn : RwTxn) (k : K) (v : V) :
    Except error.Put (Option V × Table × RwTxn) :=
  DbWrapper.try_put db kc dc s txn k v

/-- Embeds DatabaseUnique::delete (src/db/mod.rs lines 743-753). -/
def DatabaseUnique.delete {K : Type} (db : DbWrapper) (kc : Codec K)
    (s : Table) (txn : RwTxn) (k : K) :
    Except error.Delete (Bool × Table × RwTxn) :=
  DbWrapper.delete db kc s txn k

/-- Embeds DatabaseDup::put (src/db/mod.rs lines 1013-1027): delegate to
put_with_flags with empty flags; the table was created with DUP_SORT. -/
def DatabaseDup.put {K V : Type} (db : DbWrapper) (kc : Codec K)
    (dc : Codec V) (s : Table) (txn : RwTxn) (k : K) (v : V) :
    Except error.Put (Table × RwTxn) :=
  DbWrapper.put_with_flags_dup db kc dc s txn k v

/-- Embeds DatabaseDup::delete_each (src/db/mod.rs lines 973-984): delete
every item with the key, via DbWrapper::delete. -/
def DatabaseDup.delete_each {K : Type} (db : DbWrapper) (kc : Codec K)
    (s : Table) (txn : RwTxn) (k : K) :
    Except error.Delete (Bool × Table × RwTxn) :=
  DbWrapper.delete db kc s txn k

/-- Embeds RoDatabaseDup::get (src/db/mod.rs lines 894-908): the duplicates
iterator for one key. -/
def RoDatabaseDup.get {K V : Type} (db : DbWrapper) (kc : Codec K)
    (dc : Codec V) (s : Table) (k : K) :
    Except error.IterDuplicatesInit (List (Except error.IterItem V)) :=
  DbWrapper.get_duplicates db kc dc s k

end Sneed

namespace Sneed

theorem engineGet_enginePutUnique_self (s : Table) (kb vb : Bytes) :
    engineGet (enginePutUnique s kb vb) kb = some vb := by
  induction s with
  | nil => simp [enginePutUnique, engineGet]
  | cons r rest ih =>
    obtain ⟨k, v⟩ := r
    unfold enginePutUnique
    by_cases h1 : kb < k
    · simp [h1, engineGet]
    · by_cases h2 : kb = k
      · simp [h1, h2, engineGet]
      · have hne : (k == kb) = false := by
          simp only [beq_eq_false_iff_ne]
          exact fun hc => h2 hc.symm
        simp only [if_neg h1, if_neg h2]
        simpa [engineGet, List.find?_cons, hne] using ih

theorem engineGet_enginePutUnique_other (s : Table) (kb vb kb2 : Bytes)
    (h : kb2 ≠ kb) :
    engineGet (enginePutUnique s kb vb) kb2 = engineGet s kb2 := by
  have hne : (kb == kb2) = false := by
    simp only [beq_eq_false_iff_ne]
    exact fun hc => h hc.symm
  induction s with
  | nil => simp [enginePutUnique, engineGet, hne]
  | cons r rest ih =>
    obtain ⟨k, v⟩ := r
    unfold enginePutUnique
    by_cases h1 : kb < k
    · simp [h1, engineGet, List.find?_cons, hne]
    · by_cases h2 : kb = k
      · subst h2
        simp [if_neg h1, engineGet, List.find?_cons, hne]
      · simp only [if_neg h1, if_neg h2]
        simp only [engineGet, List.find?_cons] at ih ⊢
        cases hkk : (k == kb2) with
        | true => simp [hkk]
        | false => simpa [hkk] using ih

theorem mem_dupValues_iff (s : Table) (kb w : Bytes) :
    w ∈ dupValues s kb ↔ (kb, w) ∈ s := by
  unfold dupValues
  simp only [List.mem_map, List.mem_filter, beq_iff_eq]
  constructor
  · rintro ⟨r, ⟨hr, hb⟩, rfl⟩
    obtain ⟨rk, rv⟩ := r
    simp only at hb
    rw [hb] at hr
    exact hr
  · intro h
    exact ⟨(kb, w), ⟨h, rfl⟩, rfl⟩

theorem mem_enginePutDup_self (s : Table) (kb vb : Bytes) :
    (kb, vb) ∈ enginePutDup s kb vb := by
  induction s with
  | nil => simp [enginePutDup]
  | cons r rest ih =>
    obtain ⟨k, v⟩ := r
    unfold enginePutDup
    by_cases h1 : rowLt (kb, vb) (k, v)
    · simp [h1]
    · by_cases h2 : kb = k ∧ vb = v
      · obtain ⟨hk, hv⟩ := h2
        subst hk; subst hv
        simp [if_neg h1]
      · simp only [if_neg h1, if_neg h2, List.mem_cons]
        exact Or.inr ih

theorem mem_enginePutDup_preserve (s : Table) (kb vb : Bytes)
    (r : Bytes × Bytes) : r ∈ s → r ∈ enginePutDup s kb vb := by
  induction s with
  | nil => intro hr; simp at hr
  | cons hd rest ih =>
    intro hr
    obtain ⟨k, v⟩ := hd
    unfold enginePutDup
    by_cases h1 : rowLt (kb, vb) (k, v)
    · simp only [if_pos h1, List.mem_cons]
      simp only [List.mem_cons] at hr
      exact Or.inr (by simpa using hr)
    · by_cases h2 : kb = k ∧ vb = v
      · simpa [if_neg h1, if_pos h2] using hr
      · simp only [if_neg h1, if_neg h2, List.mem_cons]
        simp only [List.mem_cons] at hr
        rcases hr with hr | hr
        · exact Or.inl hr
        · exact Or.inr (ih hr)

theorem dupValues_enginePutDup_self (s : Table) (kb vb : Bytes) :
    vb ∈ dupValues (enginePutDup s kb vb) kb :=
  (mem_dupValues_iff _ kb vb).mpr (mem_enginePutDup_self s kb vb)

theorem dupValues_enginePutDup_preserve (s : Table) (kb vb w : Bytes) :
    w ∈ dupValues s kb → w ∈ dupValues (enginePutDup s kb vb) kb := by
  intro hw
  exact (mem_dupValues_iff _ kb w).mpr
    (mem_enginePutDup_preserve s kb vb (kb, w) ((mem_dupValues_iff s kb w).mp hw))

end Sneed

namespace Sneed

theorem moveBetweenKeysFrom_sublist : ∀ (l : Table) (cur : Bytes),
    List.Sublist (moveBetweenKeysFrom cur l) l := by
  intro l
  induction l with
  | nil => intro cur; simp [moveBetweenKeysFrom]
  | cons r rs ih =>
    intro cur
    by_cases h : (r.1 == cur) = true
    · rw [moveBetweenKeysFrom, if_pos h]
      exact (ih cur).cons r
    · rw [moveBetweenKeysFrom, if_neg h]
      exact (ih r.1).cons₂ r

theorem moveBetweenKeys_sublist (s : Table) :
    List.Sublist (moveBetweenKeys s) s := by
  cases s with
  | nil => simp [moveBetweenKeys]
  | cons r rs =>
    rw [moveBetweenKeys]
    exact (moveBetweenKeysFrom_sublist rs r.1).cons₂ r

theorem moveBetweenKeysFrom_props : ∀ (l : Table) (x : Bytes × Bytes),
    (x :: l).Pairwise rowLt →
      (moveBetweenKeysFrom x.1 l).Pairwise (fun a b => a.1 < b.1) ∧
        ∀ y ∈ moveBetweenKeysFrom x.1 l, x.1 < y.1 := by
  intro l
  induction l with
  | nil =>
    intro x _
    constructor
    · simp [moveBetweenKeysFrom]
    · intro y hy
      simp [moveBetweenKeysFrom] at hy
  | cons z l2 ih =>
    intro x hp
    rw [List.pairwise_cons] at hp
    obtain ⟨hx, hzl⟩ := hp
    by_cases h : (z.1 == x.1) = true
    · have hp2 : (x :: l2).Pairwise rowLt := by
        rw [List.pairwise_cons]
        exact ⟨fun b hb => hx b (List.mem_cons_of_mem z hb),
          (List.pairwise_cons.mp hzl).2⟩
      rw [moveBetweenKeysFrom, if_pos h]
      exact ih x hp2
    · have hz : z.1 ≠ x.1 := by simpa using h
      have hxz : x.1 < z.1 := by
        rcases hx z (List.mem_cons_self z l2) with hlt | ⟨heq, _⟩
        · exact hlt
        · exact absurd heq.symm hz
      have hzp := ih z hzl
      rw [moveBetweenKeysFrom, if_neg h]
      constructor
      · rw [List.pairwise_cons]
        exact ⟨hzp.2, hzp.1⟩
      · intro y hy
        rcases List.mem_cons.mp hy with rfl | hy2
        · exact hxz
        · exact lt_trans hxz (hzp.2 y hy2)

theorem moveBetweenKeys_pairwise_keys (s : Table) (h : DupWF s) :
    (moveBetweenKeys s).Pairwise (fun a b => a.1 < b.1) := by
  cases s with
  | nil => simp [moveBetweenKeys]
  | cons r rs =>
    rw [moveBetweenKeys, List.pairwise_cons]
    have hprops := moveBetweenKeysFrom_props rs r h
    exact ⟨hprops.2, hprops.1⟩

theorem tableKeys_moveBetweenKeys_subset (s : Table) :
    tableKeys (moveBetweenKeys s) ⊆ tableKeys s := by
  unfold tableKeys
  exact ((moveBetweenKeys_sublist s).map (fun e => e.1)).subset

theorem mem_keys_moveBetweenKeysFrom : ∀ (l : Table) (cur kb : Bytes),
    kb ∈ tableKeys l →
      kb ∈ tableKeys (moveBetweenKeysFrom cur l) ∨ kb = cur := by
  intro l
  induction l with
  | nil =>
    intro cur kb h
    simp [tableKeys] at h
  | cons z l2 ih =>
    intro cur kb h
    simp only [tableKeys, List.map_cons, List.mem_cons] at h
    by_cases hz : (z.1 == cur) = true
    · rw [moveBetweenKeysFrom, if_pos hz]
      rcases h with rfl | h
      · exact Or.inr (beq_iff_eq.mp hz)
      · exact ih cur kb (by simpa [tableKeys] using h)
    · rw [moveBetweenKeysFrom, if_neg hz]
      rcases h with rfl | h
      · refine Or.inl ?_
        simp [tableKeys]
      · rcases ih z.1 kb (by simpa [tableKeys] using h) with hin | rfl
        · refine Or.inl ?_
          simp only [tableKeys, List.map_cons, List.mem_cons]
          exact Or.inr (by simpa [tableKeys] using hin)
        · refine Or.inl ?_
          simp [tableKeys]

theorem mem_tableKeys_moveBetweenKeys (s : Table) (kb : Bytes) :
    kb ∈ tableKeys (moveBetweenKeys s) ↔ kb ∈ tableKeys s := by
  constructor
  · intro h
    exact tableKeys_moveBetweenKeys_subset s h
  · intro h
    cases s with
    | nil => simp [tableKeys] at h
    | cons r rs =>
      rw [moveBetweenKeys]
      simp only [tableKeys, List.map_cons, List.mem_cons] at h ⊢
      rcases h with rfl | h
      · exact Or.inl rfl
      · rcases mem_keys_moveBetweenKeysFrom rs r.1 kb
            (by simpa [tableKeys] using h) with hin | rfl
        · exact Or.inr (by simpa [tableKeys] using hin)
        · exact Or.inl rfl

end Sneed

namespace Sneed

theorem pwInsert_keys (pw : List (String × Nat)) (n : String) (tx : Nat) :
    (pwInsert pw n tx).map (fun e => e.1) =
      if pw.any (fun e => e.1 == n) then pw.map (fun e => e.1)
      else pw.map (fun e => e.1) ++ [n] := by
  unfold pwInsert
  split
  case isTrue h =>
    rw [List.map_map]
    apply List.map_congr_left
    intro e _
    simp only [Function.comp]
    split
    case isTrue hb => exact (beq_iff_eq.mp hb).symm
    case isFalse => rfl
  case isFalse h =>
    simp [List.map_append]

theorem pwInsert_keys_mem (pw : List (String × Nat)) (n : String) (tx : Nat)
    (m : String) :
    m ∈ (pwInsert pw n tx).map (fun e => e.1) ↔
      m ∈ pw.map (fun e => e.1) ∨ m = n := by
  rw [pwInsert_keys]
  split
  case isTrue h =>
    constructor
    · exact Or.inl
    · rintro (hm | rfl)
      · exact hm
      · rcases List.any_eq_true.mp h with ⟨e, he, hb⟩
        exact List.mem_map.mpr ⟨e, he, beq_iff_eq.mp hb⟩
  case isFalse h =>
    simp [List.mem_append]

theorem pwInsert_keys_nodup (pw : List (String × Nat)) (n : String) (tx : Nat)
    (h : (pw.map (fun e => e.1)).Nodup) :
    ((pwInsert pw n tx).map (fun e => e.1)).Nodup := by
  rw [pwInsert_keys]
  split
  case isTrue => exact h
  case isFalse hany =>
    have hn : n ∉ pw.map (fun e => e.1) := by
      intro hc
      rcases List.mem_map.mp hc with ⟨e, he, heq⟩
      exact hany (List.any_eq_true.mpr ⟨e, he, beq_iff_eq.mpr heq⟩)
    simp [List.nodup_append, h, hn]

theorem applyWrites_cons (d : DbWrapper) (ds : List DbWrapper) (txn : RwTxn) :
    applyWrites (d :: ds) txn = applyWrites ds (registerPendingWrite txn d) :=
  rfl

theorem applyWrites_parent (dbs : List DbWrapper) : ∀ txn : RwTxn,
    (applyWrites dbs txn).parent_pending_writes = txn.parent_pending_writes := by
  induction dbs with
  | nil => intro txn; rfl
  | cons d ds ih =>
    intro txn
    rw [applyWrites_cons]
    exact ih (registerPendingWrite txn d)

theorem applyWrites_keys_nodup (dbs : List DbWrapper) : ∀ txn : RwTxn,
    (txn.pending_writes.map (fun e => e.1)).Nodup →
    ((applyWrites dbs txn).pending_writes.map (fun e => e.1)).Nodup := by
  induction dbs with
  | nil => intro txn h; exact h
  | cons d ds ih =>
    intro txn h
    rw [applyWrites_cons]
    exact ih (registerPendingWrite txn d) (pwInsert_keys_nodup _ _ _ h)

theorem applyWrites_keys_mem (dbs : List DbWrapper) : ∀ (txn : RwTxn) (m : String),
    m ∈ (applyWrites dbs txn).pending_writes.map (fun e => e.1) ↔
      m ∈ txn.pending_writes.map (fun e => e.1) ∨ m ∈ dbs.map DbWrapper.name := by
  induction dbs with
  | nil => intro txn m; simp [applyWrites]
  | cons d ds ih =>
    intro txn m
    rw [applyWrites_cons, ih]
    have : m ∈ (registerPendingWrite txn d).pending_writes.map (fun e => e.1) ↔
        m ∈ txn.pending_writes.map (fun e => e.1) ∨ m = d.name :=
      pwInsert_keys_mem _ _ _ m
    rw [this]
    simp only [List.map_cons, List.mem_cons]
    tauto

/-- Group of one key in an iterator output: the values of the successfully
decoded rows carrying that key, in output order. -/
def groupByKey : List (Except error.IterItem (Bytes × Bytes)) → Bytes →
    List (Except error.IterItem Bytes)
  | [], _ => []
  | .error _ :: rest, kb => groupByKey rest kb
  | .ok r :: rest, kb =>
    if r.1 == kb then .ok r.2 :: groupByKey rest kb else groupByKey rest kb

theorem groupByKey_map_ok (s : Table) (kb : Bytes) :
    groupByKey (s.map Except.ok) kb =
      (s.filter (fun r => r.1 == kb)).map (fun r => Except.ok r.2) := by
  induction s with
  | nil => rfl
  | cons r rest ih =>
    rw [List.map_cons, groupByKey, List.filter_cons]
    cases h : (r.1 == kb) with
    | true => simp [h, ih]
    | false => simp [h, ih]

end Sneed

namespace Sneed

/-- C10: for every call to get in which try_get returns Ok(None) (key
absent, no error), the second encoding of the key performed to construct the
Get::MissingValue error succeeds, so the unwrap at that construction site
never panics: get returns the MissingValue error instead of hitting the
panic (outer error) branch. -/
theorem C10_get_missing_value_unwrap_safe {K V : Type} (db : DbWrapper)
    (kc : Codec K) (dc : Codec V) (s : Table) (k : K)
    (h : db.try_get kc dc s k = .ok none) :
    ∃ kb, kc.encode k = .ok kb ∧
      db.get kc dc s k = .ok (.error (.missingValue db.name db.path kb)) := by
  have hg : heedGet kc dc s k = .ok none := by
    unfold DbWrapper.try_get at h
    cases hh : heedGet kc dc s k with
    | ok r =>
      simp only [hh] at h
      simp only [Except.ok.injEq] at h
      rw [h]
    | error e =>
      simp only [hh] at h
      cases h
  obtain ⟨kb, hkb⟩ := heedGet_ok_none_encode_ok kc dc s k hg
  refine ⟨kb, hkb, ?_⟩
  unfold DbWrapper.get
  simp only [h, hkb]

/-- C10 witness: at the byte codec over the empty table with key 0x00,
try_get reports absence and get produces the MissingValue error without
panicking. -/
theorem C10_witness :
    DbWrapper.try_get ⟨"accounts", "/db", 0⟩ bytesCodec bytesCodec [] [0] =
      .ok none ∧
    ∃ kb, bytesCodec.encode [0] = .ok kb ∧
      DbWrapper.get ⟨"accounts", "/db", 0⟩ bytesCodec bytesCodec [] [0] =
        .ok (.error (.missingValue "accounts" "/db" kb)) :=
  ⟨rfl, C10_get_missing_value_unwrap_safe ⟨"accounts", "/db", 0⟩
    bytesCodec bytesCodec [] [0] rfl⟩

end Sneed

namespace Sneed

/-- C4: for a unique-key database, get fails with Get::MissingValue exactly
when the key is absent and with Get::TryGet exactly when the underlying
lookup failed, while try_get on the same state returns Ok none exactly for
an absent key; a key-encode failure propagates as a TryGet error that
records the encode error instead of key bytes. -/
theorem C4_get_error_discipline {K V : Type} (db : DbWrapper) (kc : Codec K)
    (dc : Codec V) (s : Table) (k : K) :
    (∀ kb, kc.encode k = .ok kb →
      (∀ vb, engineGet s kb = some vb → ∃ v2, dc.decode vb = .ok v2) →
      ((db.try_get kc dc s k = .ok none ↔ engineGet s kb = none) ∧
       (db.get kc dc s k = .ok (.error (.missingValue db.name db.path kb)) ↔
         engineGet s kb = none))) ∧
    (∀ e, db.get kc dc s k = .ok (.error (.tryGet e)) ↔
      db.try_get kc dc s k = .error e) ∧
    (∀ e2, kc.encode k = .error e2 →
      ∃ tg, db.try_get kc dc s k = .error tg ∧
        tg.key_bytes = .error e2) := by
  refine ⟨?_, ?_, ?_⟩
  · intro kb hkb hdec
    have htg : ∀ hG : engineGet s kb = none,
        db.try_get kc dc s k = .ok none := by
      intro hG
      unfold DbWrapper.try_get heedGet
      simp only [hkb, hG]
    constructor
    · constructor
      · intro h
        by_contra hG
        cases hGe : engineGet s kb with
        | none => exact hG hGe
        | some vb =>
          obtain ⟨v2, hv2⟩ := hdec vb hGe
          unfold DbWrapper.try_get heedGet at h
          simp [hkb, hGe, hv2] at h
      · intro hG
        exact htg hG
    · constructor
      · intro h
        by_contra hG
        cases hGe : engineGet s kb with
        | none => exact hG hGe
        | some vb =>
          obtain ⟨v2, hv2⟩ := hdec vb hGe
          unfold DbWrapper.get DbWrapper.try_get heedGet at h
          simp [hkb, hGe, hv2] at h
      · intro hG
        unfold DbWrapper.get
        simp only [htg hG, hkb]
  · intro e
    constructor
    · intro h
      unfold DbWrapper.get at h
      cases htg : db.try_get kc dc s k with
      | error e0 =>
        simp only [htg, Except.ok.injEq, Except.error.injEq] at h
        simp only [error.Get.tryGet.injEq] at h
        rw [h]
      | ok r =>
        cases r with
        | none =>
          simp only [htg] at h
          cases hkb : kc.encode k with
          | ok kb => simp only [hkb] at h; cases h
          | error e2 => simp only [hkb] at h; cases h
        | some v => simp only [htg] at h; cases h
    · intro h
      unfold DbWrapper.get
      simp only [h]
  · intro e2 hkb
    refine ⟨{ db_name := db.name, db_path := db.path,
              key_bytes := kc.encode k, source := e2 }, ?_, ?_⟩
    · unfold DbWrapper.try_get heedGet
      simp only [hkb]
    · simp only [hkb]

/-- C4 witness: over the one-row table 0x01 to 0x64 with the byte codec,
get on an absent key 0x02 is exactly the MissingValue error, try_get there
is Ok none, get on the present key is not a TryGet error, and a failing key
codec yields a TryGet error recording the encode failure. -/
theorem C4_witness :
    (bytesCodec.encode [2] = .ok [2] ∧
      (DbWrapper.try_get ⟨"accounts", "/db", 0⟩ bytesCodec bytesCodec
          [([1], [100])] [2] = .ok none ↔
        engineGet [([1], [100])] [2] = none) ∧
      (DbWrapper.get ⟨"accounts", "/db", 0⟩ bytesCodec bytesCodec
          [([1], [100])] [2] =
            .ok (.error (.missingValue "accounts" "/db" [2])) ↔
        engineGet [([1], [100])] [2] = none)) ∧
    engineGet [([1], [100])] [2] = none := by
  have h := (C4_get_error_discipline ⟨"accounts", "/db", 0⟩ bytesCodec
    bytesCodec [([1], [100])] [2]).1 [2] rfl
    (by intro vb hvb; exact ⟨vb, rfl⟩)
  exact ⟨⟨rfl, h.1, h.2⟩, rfl⟩

end Sneed

namespace Sneed

/-- C3: for a unique-key database, try_put on a present key returns the
pre-existing decoded value and leaves the stored table unchanged; on an
absent key it inserts the new value and returns none. -/
theorem C3_try_put_insert_or_fetch {K V : Type} (db : DbWrapper)
    (kc : Codec K) (dc : Codec V) (s : Table) (txn : RwTxn) (k : K) (v : V)
    (kb vb : Bytes) (hk : kc.encode k = .ok kb) (hv : dc.encode v = .ok vb) :
    (∀ pvb, engineGet s kb = some pvb → ∀ pv, dc.decode pvb = .ok pv →
      DatabaseUnique.try_put db kc dc s txn k v =
        .ok (some pv, s, registerPendingWrite txn db)) ∧
    (engineGet s kb = none →
      DatabaseUnique.try_put db kc dc s txn k v =
        .ok (none, enginePutUnique s kb vb, registerPendingWrite txn db) ∧
      engineGet (enginePutUnique s kb vb) kb = some vb) := by
  constructor
  · intro pvb hpvb pv hpv
    unfold DatabaseUnique.try_put DbWrapper.try_put heedGetOrPut
    simp only [hk, hv, hpvb, hpv]
  · intro hG
    constructor
    · unfold DatabaseUnique.try_put DbWrapper.try_put heedGetOrPut
      simp only [hk, hv, hG]
    · exact engineGet_enginePutUnique_self s kb vb

/-- C3 witness: with the byte codec, try_put of 0x02 on the table holding
key 0x01 at 0x0a returns the stored value unchanged when the key is present,
and inserts returning none when absent. -/
theorem C3_witness :
    (bytesCodec.encode [1] = .ok [1] ∧ bytesCodec.encode [11] = .ok [11] ∧
      engineGet [([1], [10])] [1] = some [10] ∧
      bytesCodec.decode [10] = .ok [10] ∧
      DatabaseUnique.try_put ⟨"accounts", "/db", 0⟩ bytesCodec bytesCodec
          [([1], [10])] RwTxn.root [1] [11] =
        .ok (some [10], [([1], [10])],
          registerPendingWrite RwTxn.root ⟨"accounts", "/db", 0⟩)) ∧
    (engineGet ([] : Table) [1] = none ∧
      DatabaseUnique.try_put ⟨"accounts", "/db", 0⟩ bytesCodec bytesCodec
          [] RwTxn.root [1] [11] =
        .ok (none, enginePutUnique [] [1] [11],
          registerPendingWrite RwTxn.root ⟨"accounts", "/db", 0⟩) ∧
      engineGet (enginePutUnique [] [1] [11]) [1] = some [11]) := by
  have h1 := (C3_try_put_insert_or_fetch ⟨"accounts", "/db", 0⟩ bytesCodec
    bytesCodec [([1], [10])] RwTxn.root [1] [11] [1] [11] rfl rfl).1
    [10] rfl [10] rfl
  have h2 := (C3_try_put_insert_or_fetch ⟨"accounts", "/db", 0⟩ bytesCodec
    bytesCodec [] RwTxn.root [1] [11] [1] [11] rfl rfl).2 rfl
  exact ⟨⟨rfl, rfl, rfl, rfl, h1⟩, ⟨rfl, h2.1, h2.2⟩⟩

/-- C2 counterexample: on a duplicate-key database, put does not overwrite:
with value 0x0a already stored under key 0x01, DatabaseDup::put of 0x14
leaves the key mapped to both values, not to 0x14 alone as the claim
requires. -/
theorem C2_counterexample :
    ∃ s2 txn2,
      DatabaseDup.put ⟨"tags", "/db", 0⟩ bytesCodec bytesCodec
          [([1], [10])] RwTxn.root [1] [20] = .ok (s2, txn2) ∧
      dupValues s2 [1] = [[10], [20]] ∧ dupValues s2 [1] ≠ [[20]] := by
  refine ⟨[([1], [10]), ([1], [20])],
    registerPendingWrite RwTxn.root ⟨"tags", "/db", 0⟩, ?_, by decide, by decide⟩
  unfold DatabaseDup.put DbWrapper.put_with_flags_dup heedPutDup
  simp only [bytesCodec]
  rw [show enginePutDup [([1], [10])] [1] [20] = [([1], [10]), ([1], [20])]
    from by decide]

/-- C2 (amended): for a unique-key database put is an upsert, always
overwriting, so afterwards the key maps to exactly the new value while every
other key is unchanged; for a duplicate-key database put instead inserts the
value among the key's sorted duplicates, so afterwards the key maps to the
new value and also retains every previously stored value. -/
theorem C2_put_semantics {K V : Type} (db : DbWrapper) (kc : Codec K)
    (dc : Codec V) (s : Table) (txn : RwTxn) (k : K) (v : V) (kb vb : Bytes)
    (hk : kc.encode k = .ok kb) (hv : dc.encode v = .ok vb) :
    (DatabaseUnique.put db kc dc s txn k v =
        .ok (enginePutUnique s kb vb, registerPendingWrite txn db) ∧
      engineGet (enginePutUnique s kb vb) kb = some vb ∧
      (∀ kb2, kb2 ≠ kb →
        engineGet (enginePutUnique s kb vb) kb2 = engineGet s kb2)) ∧
    (DatabaseDup.put db kc dc s txn k v =
        .ok (enginePutDup s kb vb, registerPendingWrite txn db) ∧
      vb ∈ dupValues (enginePutDup s kb vb) kb ∧
      (∀ w, w ∈ dupValues s kb → w ∈ dupValues (enginePutDup s kb vb) kb)) := by
  refine ⟨⟨?_, ?_, ?_⟩, ⟨?_, ?_, ?_⟩⟩
  · unfold DatabaseUnique.put DbWrapper.put_with_flags_unique heedPutUnique
    simp only [hk, hv]
  · exact engineGet_enginePutUnique_self s kb vb
  · intro kb2 h2
    exact engineGet_enginePutUnique_other s kb vb kb2 h2
  · unfold DatabaseDup.put DbWrapper.put_with_flags_dup heedPutDup
    simp only [hk, hv]
  · exact dupValues_enginePutDup_self s kb vb
  · intro w hw
    exact dupValues_enginePutDup_preserve s kb vb w hw

/-- C2 witness: the amended semantics evaluated with the byte codec at key
0x01: the unique-key put overwrites 0x0a with 0x14 and leaves key 0x02
alone; the duplicate-key put keeps 0x0a and adds 0x14. -/
theorem C2_witness :
    (bytesCodec.encode ([1] : Bytes) = .ok [1] ∧
      bytesCodec.encode ([20] : Bytes) = .ok [20]) ∧
    (DatabaseUnique.put ⟨"accounts", "/db", 0⟩ bytesCodec bytesCodec
        [([1], [10]), ([2], [30])] RwTxn.root [1] [20] =
      .ok (enginePutUnique [([1], [10]), ([2], [30])] [1] [20],
        registerPendingWrite RwTxn.root ⟨"accounts", "/db", 0⟩) ∧
      engineGet (enginePutUnique [([1], [10]), ([2], [30])] [1] [20]) [1] =
        some [20] ∧
      engineGet (enginePutUnique [([1], [10]), ([2], [30])] [1] [20]) [2] =
        engineGet [([1], [10]), ([2], [30])] [2]) ∧
    ([20] ∈ dupValues (enginePutDup [([1], [10])] [1] [20]) [1] ∧
      [10] ∈ dupValues (enginePutDup [([1], [10])] [1] [20]) [1]) := by
  have hu := (C2_put_semantics ⟨"accounts", "/db", 0⟩ bytesCodec bytesCodec
    [([1], [10]), ([2], [30])] RwTxn.root [1] [20] [1] [20] rfl rfl).1
  have hd := (C2_put_semantics ⟨"accounts", "/db", 0⟩ bytesCodec bytesCodec
    [([1], [10])] RwTxn.root [1] [20] [1] [20] rfl rfl).2
  exact ⟨⟨rfl, rfl⟩, ⟨hu.1, hu.2.1, hu.2.2 [2] (by decide)⟩,
    ⟨hd.2.1, hd.2.2 [10] (by decide)⟩⟩

end Sneed

namespace Sneed

/-- C8: delete on an absent key returns false and leaves the table
unchanged; on a present key it returns true and removes exactly the rows
stored under that key (all of them, for a duplicate-key table); the
unique-key delete and the duplicate-key delete_each are both this same
operation. -/
theorem C8_delete_semantics {K : Type} (db : DbWrapper) (kc : Codec K)
    (s : Table) (txn : RwTxn) (k : K) (kb : Bytes)
    (hk : kc.encode k = .ok kb) :
    (kb ∉ tableKeys s →
      DbWrapper.delete db kc s txn k =
        .ok (false, s, registerPendingWrite txn db)) ∧
    (kb ∈ tableKeys s →
      ∃ s2, DbWrapper.delete db kc s txn k =
          .ok (true, s2, registerPendingWrite txn db) ∧
        (∀ r ∈ s2, r ∈ s ∧ r.1 ≠ kb) ∧
        (∀ r ∈ s, r.1 ≠ kb → r ∈ s2)) ∧
    DatabaseUnique.delete db kc s txn k = DbWrapper.delete db kc s txn k ∧
    DatabaseDup.delete_each db kc s txn k = DbWrapper.delete db kc s txn k := by
  refine ⟨?_, ?_, rfl, rfl⟩
  · intro habs
    have hnone : ∀ r ∈ s, (r.1 == kb) = false := by
      intro r hr
      simp only [beq_eq_false_iff_ne]
      intro hc
      exact habs (List.mem_map.mpr ⟨r, hr, hc⟩)
    have hany : s.any (fun r => r.1 == kb) = false := by
      rw [List.any_eq_false]
      intro r hr
      simp [hnone r hr]
    have hfil : s.filter (fun r => !(r.1 == kb)) = s := by
      rw [List.filter_eq_self]
      intro r hr
      simp [hnone r hr]
    unfold DbWrapper.delete heedDelete engineDelete
    simp only [hk, hany, hfil]
  · intro hmem
    refine ⟨s.filter (fun r => !(r.1 == kb)), ?_, ?_, ?_⟩
    · have hany : s.any (fun r => r.1 == kb) = true := by
        rw [List.any_eq_true]
        rcases List.mem_map.mp hmem with ⟨r, hr, hrk⟩
        exact ⟨r, hr, beq_iff_eq.mpr hrk⟩
      unfold DbWrapper.delete heedDelete engineDelete
      simp only [hk, hany]
    · intro r hr
      have hf := List.mem_filter.mp hr
      refine ⟨hf.1, ?_⟩
      simpa using hf.2
    · intro r hr hne
      exact List.mem_filter.mpr ⟨hr, by simp [hne]⟩

/-- C8 witness: deleting absent key 0x03 from the two-duplicate table under
key 0x01 is a no-op returning false; deleting present key 0x01 returns true
and removes both its rows while keeping key 0x02. -/
theorem C8_witness :
    (bytesCodec.encode ([3] : Bytes) = .ok [3] ∧
      ([3] : Bytes) ∉ tableKeys [([1], [10]), ([1], [20]), ([2], [30])] ∧
      DbWrapper.delete ⟨"tags", "/db", 0⟩ bytesCodec
          [([1], [10]), ([1], [20]), ([2], [30])] RwTxn.root [3] =
        .ok (false, [([1], [10]), ([1], [20]), ([2], [30])],
          registerPendingWrite RwTxn.root ⟨"tags", "/db", 0⟩)) ∧
    (bytesCodec.encode ([1] : Bytes) = .ok [1] ∧
      ([1] : Bytes) ∈ tableKeys [([1], [10]), ([1], [20]), ([2], [30])] ∧
      ∃ s2, DbWrapper.delete ⟨"tags", "/db", 0⟩ bytesCodec
          [([1], [10]), ([1], [20]), ([2], [30])] RwTxn.root [1] =
          .ok (true, s2, registerPendingWrite RwTxn.root ⟨"tags", "/db", 0⟩) ∧
        (∀ r ∈ s2, r ∈ [(([1], [10]) : Bytes × Bytes), ([1], [20]), ([2], [30])] ∧
          r.1 ≠ [1]) ∧
        (∀ r ∈ [(([1], [10]) : Bytes × Bytes), ([1], [20]), ([2], [30])],
          r.1 ≠ [1] → r ∈ s2)) := by
  have h1 := (C8_delete_semantics ⟨"tags", "/db", 0⟩ bytesCodec
    [([1], [10]), ([1], [20]), ([2], [30])] RwTxn.root [3] [3] rfl).1
    (by decide)
  have h2 := (C8_delete_semantics ⟨"tags", "/db", 0⟩ bytesCodec
    [([1], [10]), ([1], [20]), ([2], [30])] RwTxn.root [1] [1] rfl).2.1
    (by decide)
  exact ⟨⟨rfl, by decide, h1⟩, ⟨rfl, by decide, h2⟩⟩

/-- Codec whose encode fails on odd naturals, to exercise bound-encode
failure paths. -/
def oddFailCodec : Codec Nat :=
  { encode := fun n => if n % 2 == 0 then .ok [n] else .error "odd key",
    decode := fun bs =>
      match bs with
      | [n] => .ok n
      | _ => .error "bad length" }

/-- C9: when encoding a range bound fails, the range query fails with the
distinct RangeInit error, whose record holds, for each of the two sides
independently, that side's encoded bound bytes or its encode failure, so one
side's failure does not obscure the other side's bound. -/
theorem C9_range_init_records_both_bounds {K V : Type} (db : DbWrapper)
    (kc : Codec K) (dc : Codec V) (s : Table) (lo hi : Bound K)
    (h : (∃ e, encodeBound kc lo = .error e) ∨
      (∃ e, encodeBound kc hi = .error e)) :
    ∃ err, db.range_through_duplicate_values kc dc s lo hi = .error err ∧
      err.db_name = db.name ∧ err.db_path = db.path ∧
      err.range_start_bytes = encodeBound kc lo ∧
      err.range_end_bytes = encodeBound kc hi := by
  have hrng : ∃ e0, heedRange kc s lo hi = .error e0 := by
    unfold heedRange
    rcases h with ⟨e, he⟩ | ⟨e, he⟩
    · rw [he]
      exact ⟨e, rfl⟩
    · cases hlo : encodeBound kc lo with
      | error e1 => exact ⟨e1, rfl⟩
      | ok lo2 =>
        rw [he]
        exact ⟨e, rfl⟩
  obtain ⟨e0, he0⟩ := hrng
  unfold DbWrapper.range_through_duplicate_values
  rw [he0]
  exact ⟨{ db_name := db.name, db_path := db.path,
           range_start_bytes := encodeBound kc lo,
           range_end_bytes := encodeBound kc hi, source := e0 },
    rfl, rfl, rfl, rfl, rfl⟩

/-- C9 witness: a start bound whose key encodes oddly fails; the RangeInit
error still records the end bound's successfully encoded bytes next to the
start side's encode failure. -/
theorem C9_witness :
    ((∃ e, encodeBound oddFailCodec (Bound.included 1) = .error e) ∨
      (∃ e, encodeBound oddFailCodec (Bound.included 2) = .error e)) ∧
    ∃ err, DbWrapper.range_through_duplicate_values ⟨"accounts", "/db", 0⟩
        oddFailCodec oddFailCodec [] (Bound.included 1) (Bound.included 2) =
        .error err ∧
      err.db_name = "accounts" ∧ err.db_path = "/db" ∧
      err.range_start_bytes = encodeBound oddFailCodec (Bound.included 1) ∧
      err.range_end_bytes = encodeBound oddFailCodec (Bound.included 2) :=
  ⟨Or.inl ⟨"odd key", rfl⟩,
    C9_range_init_records_both_bounds ⟨"accounts", "/db", 0⟩ oddFailCodec
      oddFailCodec [] (Bound.included 1) (Bound.included 2)
      (Or.inl ⟨"odd key", rfl⟩)⟩

end Sneed

namespace Sneed

theorem pwExtend_cons (pw : List (String × Nat)) (a : String × Nat)
    (adds : List (String × Nat)) :
    pwExtend pw (a :: adds) = pwExtend (pwInsert pw a.1 a.2) adds :=
  rfl

theorem pwExtend_keys_mem : ∀ (adds pw : List (String × Nat)) (m : String),
    m ∈ (pwExtend pw adds).map (fun e => e.1) ↔
      m ∈ pw.map (fun e => e.1) ∨ m ∈ adds.map (fun e => e.1) := by
  intro adds
  induction adds with
  | nil => intro pw m; simp [pwExtend]
  | cons a as ih =>
    intro pw m
    rw [pwExtend_cons, ih, pwInsert_keys_mem]
    simp only [List.map_cons, List.mem_cons]
    tauto

theorem pwExtend_keys_nodup : ∀ (adds pw : List (String × Nat)),
    (pw.map (fun e => e.1)).Nodup →
    ((pwExtend pw adds).map (fun e => e.1)).Nodup := by
  intro adds
  induction adds with
  | nil => intro pw h; exact h
  | cons a as ih =>
    intro pw h
    rw [pwExtend_cons]
    exact ih _ (pwInsert_keys_nodup pw a.1 a.2 h)

/-- C5 counterexample: committing a nested write transaction fires no
notification at all: after a put registers the touched database in the
nested transaction's pending-write set, commit fires zero sends for it (the
set merges into the parent instead), not exactly one as the claim requires
for every commit. -/
theorem C5_counterexample :
    ∃ s2 txn2,
      DatabaseUnique.put ⟨"accounts", "/db", 7⟩ bytesCodec bytesCodec []
          (RwTxn.nested []) [1] [10] = .ok (s2, txn2) ∧
      "accounts" ∈ txn2.pending_writes.map (fun e => e.1) ∧
      ((txn2.commit).1.map (fun e => e.1)).count "accounts" = 0 ∧
      ((txn2.commit).1.map (fun e => e.1)).count "accounts" ≠ 1 := by
  refine ⟨enginePutUnique [] [1] [10],
    registerPendingWrite (RwTxn.nested []) ⟨"accounts", "/db", 7⟩,
    ?_, ?_, ?_, ?_⟩
  · unfold DatabaseUnique.put DbWrapper.put_with_flags_unique heedPutUnique
    simp only [bytesCodec]
  · decide
  · decide
  · decide

/-- C5 (amended): committing a root write transaction fires the notification
of each database in its pending-write set exactly once, however many
mutating operations touched that database (registration is idempotent per
database name); committing a nested write transaction fires none and instead
merges its pending-write set into the parent's, the merged set registering
exactly the parent's databases together with those the nested transaction
touched, still at most once per name; aborting fires none. -/
theorem C5_commit_notification_semantics (dbs : List DbWrapper) :
    ((((applyWrites dbs RwTxn.root).commit).1.map (fun e => e.1)).Nodup ∧
      (∀ n, n ∈ ((applyWrites dbs RwTxn.root).commit).1.map (fun e => e.1) ↔
        n ∈ dbs.map DbWrapper.name) ∧
      (∀ n, n ∈ dbs.map DbWrapper.name →
        (((applyWrites dbs RwTxn.root).commit).1.map (fun e => e.1)).count n
          = 1) ∧
      (applyWrites dbs RwTxn.root).abort = []) ∧
    (∀ parent, ((applyWrites dbs (RwTxn.nested parent)).commit).1 = [] ∧
      ((applyWrites dbs (RwTxn.nested parent)).commit).2 =
        some (pwExtend parent
          (applyWrites dbs (RwTxn.nested parent)).pending_writes) ∧
      (∀ n, n ∈ (pwExtend parent
            (applyWrites dbs (RwTxn.nested parent)).pending_writes).map
          (fun e => e.1) ↔
        n ∈ parent.map (fun e => e.1) ∨ n ∈ dbs.map DbWrapper.name) ∧
      ((parent.map (fun e => e.1)).Nodup →
        ((pwExtend parent
            (applyWrites dbs (RwTxn.nested parent)).pending_writes).map
          (fun e => e.1)).Nodup) ∧
      (applyWrites dbs (RwTxn.nested parent)).abort = []) := by
  have hparent : (applyWrites dbs RwTxn.root).parent_pending_writes = none :=
    applyWrites_parent dbs RwTxn.root
  have hcommit : ((applyWrites dbs RwTxn.root).commit).1 =
      (applyWrites dbs RwTxn.root).pending_writes := by
    unfold RwTxn.commit
    rw [hparent]
  have hnodup :
      (((applyWrites dbs RwTxn.root).pending_writes).map (fun e => e.1)).Nodup :=
    applyWrites_keys_nodup dbs RwTxn.root (by simp [RwTxn.root])
  have hmem : ∀ n,
      n ∈ ((applyWrites dbs RwTxn.root).pending_writes).map (fun e => e.1) ↔
        n ∈ dbs.map DbWrapper.name := by
    intro n
    rw [applyWrites_keys_mem dbs RwTxn.root n]
    simp [RwTxn.root]
  refine ⟨⟨?_, ?_, ?_, rfl⟩, ?_⟩
  · rw [hcommit]
    exact hnodup
  · intro n
    rw [hcommit]
    exact hmem n
  · intro n hn
    rw [hcommit]
    exact List.count_eq_one_of_mem hnodup ((hmem n).mpr hn)
  · intro parent
    have hp : (applyWrites dbs (RwTxn.nested parent)).parent_pending_writes =
        some parent := applyWrites_parent dbs (RwTxn.nested parent)
    have hnmem : ∀ n,
        n ∈ ((applyWrites dbs (RwTxn.nested parent)).pending_writes).map
          (fun e => e.1) ↔ n ∈ dbs.map DbWrapper.name := by
      intro n
      rw [applyWrites_keys_mem dbs (RwTxn.nested parent) n]
      simp [RwTxn.nested]
    refine ⟨?_, ?_, ?_, ?_, rfl⟩
    · unfold RwTxn.commit
      rw [hp]
    · unfold RwTxn.commit
      rw [hp]
    · intro n
      rw [pwExtend_keys_mem, hnmem n]
    · intro hpn
      exact pwExtend_keys_nodup _ parent hpn

/-- C5 witness: three writes touching databases a, b, a in one root
transaction: commit fires a exactly once and b exactly once; the same writes
in a nested transaction with parent entry p fire nothing on commit and merge
into the parent set, which then registers p, a and b each at most once;
abort fires nothing. -/
theorem C5_witness :
    ((((applyWrites [⟨"a", "/db", 1⟩, ⟨"b", "/db", 2⟩, ⟨"a", "/db", 1⟩]
          RwTxn.root).commit).1.map (fun e => e.1)).count "a" = 1 ∧
      (((applyWrites [⟨"a", "/db", 1⟩, ⟨"b", "/db", 2⟩, ⟨"a", "/db", 1⟩]
          RwTxn.root).commit).1.map (fun e => e.1)).count "b" = 1) ∧
    ((applyWrites [⟨"a", "/db", 1⟩, ⟨"b", "/db", 2⟩, ⟨"a", "/db", 1⟩]
        (RwTxn.nested [("p", 9)])).commit).1 = [] ∧
    ((applyWrites [⟨"a", "/db", 1⟩, ⟨"b", "/db", 2⟩, ⟨"a", "/db", 1⟩]
        (RwTxn.nested [("p", 9)])).commit).2 =
      some (pwExtend [("p", 9)]
        (applyWrites [⟨"a", "/db", 1⟩, ⟨"b", "/db", 2⟩, ⟨"a", "/db", 1⟩]
          (RwTxn.nested [("p", 9)])).pending_writes) ∧
    "p" ∈ (pwExtend [("p", 9)]
        (applyWrites [⟨"a", "/db", 1⟩, ⟨"b", "/db", 2⟩, ⟨"a", "/db", 1⟩]
          (RwTxn.nested [("p", 9)])).pending_writes).map (fun e => e.1) ∧
    "a" ∈ (pwExtend [("p", 9)]
        (applyWrites [⟨"a", "/db", 1⟩, ⟨"b", "/db", 2⟩, ⟨"a", "/db", 1⟩]
          (RwTxn.nested [("p", 9)])).pending_writes).map (fun e => e.1) ∧
    ((pwExtend [("p", 9)]
        (applyWrites [⟨"a", "/db", 1⟩, ⟨"b", "/db", 2⟩, ⟨"a", "/db", 1⟩]
          (RwTxn.nested [("p", 9)])).pending_writes).map
        (fun e => e.1)).Nodup ∧
    (applyWrites [⟨"a", "/db", 1⟩, ⟨"b", "/db", 2⟩, ⟨"a", "/db", 1⟩]
        RwTxn.root).abort = [] := by
  have h := C5_commit_notification_semantics
    [⟨"a", "/db", 1⟩, ⟨"b", "/db", 2⟩, ⟨"a", "/db", 1⟩]
  have h2 := h.2 [("p", 9)]
  exact ⟨⟨h.1.2.2.1 "a" (by decide), h.1.2.2.1 "b" (by decide)⟩,
    h2.1, h2.2.1, (h2.2.2.1 "p").mpr (Or.inl (by decide)),
    (h2.2.2.1 "a").mpr (Or.inr (by decide)), h2.2.2.2.1 (by decide),
    h.1.2.2.2⟩

end Sneed

namespace Sneed

/-- C7: over the table with keys 1 to 5, the range query with bounds
excluding 2 and including 4 yields exactly the rows of keys 3 and 4 in that
order; reversing that iteration yields the same elements as 4 then 3, which
is also what reverse iteration restricted to the same bounds yields. -/
theorem C7_range_and_reverse :
    (DbWrapper.range_through_keys ⟨"numbers", "/db", 0⟩ bytesCodec bytesCodec
        [([1], [10]), ([2], [20]), ([3], [30]), ([4], [40]), ([5], [50])]
        (Bound.excluded [2]) (Bound.included [4]) =
      .ok [.ok ([3], [30]), .ok ([4], [40])]) ∧
    (([Except.ok (([3] : Bytes), ([30] : Bytes)),
        Except.ok (([4] : Bytes), ([40] : Bytes))] :
          List (Except error.IterItem (Bytes × Bytes))).reverse =
      [.ok ([4], [40]), .ok ([3], [30])]) ∧
    (DbWrapper.rev_iter_through_keys ⟨"numbers", "/db", 0⟩ bytesCodec
        bytesCodec
        [([1], [10]), ([2], [20]), ([3], [30]), ([4], [40]), ([5], [50])] =
      .ok [.ok ([5], [50]), .ok ([4], [40]), .ok ([3], [30]),
        .ok ([2], [20]), .ok ([1], [10])]) ∧
    ((moveBetweenKeys
        (([([1], [10]), ([2], [20]), ([3], [30]), ([4], [40]), ([5], [50])] :
          Table).reverse)).filter
      (fun r => loSat (Bound.excluded [2]) r.1 &&
        hiSat (Bound.included [4]) r.1) =
      [([4], [40]), ([3], [30])]) := by
  refine ⟨?_, ?_, ?_, ?_⟩ <;> decide

end Sneed

namespace Sneed

/-- C6: for every well-formed duplicate-key table, keys-unique iteration
yields exactly the distinct stored keys in ascending order with no repeats,
through-duplicate-values iteration yields every physical row in order, and
grouping the through-duplicate-values output by key yields, for each key,
exactly what get-duplicates returns for that key. -/
theorem C6_dup_iteration_invariant (db : DbWrapper) (s : Table)
    (hWF : DupWF s) :
    (DbWrapper.iter_keys_unique db bytesCodec s =
        .ok (((moveBetweenKeys s).map (fun r => r.1)).map Except.ok) ∧
      ((moveBetweenKeys s).map (fun r => r.1)).Pairwise (fun a b => a < b) ∧
      (∀ kb, kb ∈ (moveBetweenKeys s).map (fun r => r.1) ↔
        kb ∈ tableKeys s)) ∧
    DbWrapper.iter_through_duplicate_values db bytesCodec bytesCodec s =
      .ok (s.map Except.ok) ∧
    (∀ kb, DbWrapper.get_duplicates db bytesCodec bytesCodec s kb =
        .ok ((dupValues s kb).map Except.ok) ∧
      groupByKey (s.map Except.ok) kb = (dupValues s kb).map Except.ok) := by
  refine ⟨⟨?_, ?_, ?_⟩, ?_, ?_⟩
  · unfold DbWrapper.iter_keys_unique bytesCodec
    rw [List.map_map]
    rfl
  · exact List.pairwise_map.mpr (moveBetweenKeys_pairwise_keys s hWF)
  · intro kb
    exact mem_tableKeys_moveBetweenKeys s kb
  · unfold DbWrapper.iter_through_duplicate_values moveThroughDuplicateValues
    rfl
  · intro kb
    constructor
    · unfold DbWrapper.get_duplicates bytesCodec dupValues
      rw [List.map_map]
      rfl
    · rw [groupByKey_map_ok]
      unfold dupValues
      rw [List.map_map]
      rfl

/-- C6 witness: the invariant instantiated on the three-row table with keys
1, 1, 2 sorted with duplicate values 5 and 7 under key 1. -/
theorem C6_witness :
    DupWF [(([1], [5]) : Bytes × Bytes), ([1], [7]), ([2], [3])] ∧
    ((DbWrapper.iter_keys_unique ⟨"tags", "/db", 0⟩ bytesCodec
        [(([1], [5]) : Bytes × Bytes), ([1], [7]), ([2], [3])] =
        .ok (((moveBetweenKeys
            [(([1], [5]) : Bytes × Bytes), ([1], [7]), ([2], [3])]).map
          (fun r => r.1)).map Except.ok) ∧
      (((moveBetweenKeys
          [(([1], [5]) : Bytes × Bytes), ([1], [7]), ([2], [3])]).map
        (fun r => r.1)).Pairwise (fun a b => a < b)) ∧
      (∀ kb, kb ∈ (moveBetweenKeys
          [(([1], [5]) : Bytes × Bytes), ([1], [7]), ([2], [3])]).map
            (fun r => r.1) ↔
        kb ∈ tableKeys [(([1], [5]) : Bytes × Bytes), ([1], [7]), ([2], [3])])) ∧
    DbWrapper.iter_through_duplicate_values ⟨"tags", "/db", 0⟩ bytesCodec
        bytesCodec [(([1], [5]) : Bytes × Bytes), ([1], [7]), ([2], [3])] =
      .ok ([(([1], [5]) : Bytes × Bytes), ([1], [7]), ([2], [3])].map
        Except.ok) ∧
    (∀ kb, DbWrapper.get_duplicates ⟨"tags", "/db", 0⟩ bytesCodec bytesCodec
        [(([1], [5]) : Bytes × Bytes), ([1], [7]), ([2], [3])] kb =
        .ok ((dupValues
          [(([1], [5]) : Bytes × Bytes), ([1], [7]), ([2], [3])] kb).map
            Except.ok) ∧
      groupByKey ([(([1], [5]) : Bytes × Bytes), ([1], [7]), ([2], [3])].map
          Except.ok) kb =
        (dupValues [(([1], [5]) : Bytes × Bytes), ([1], [7]), ([2], [3])]
          kb).map Except.ok)) :=
  ⟨by decide, C6_dup_iteration_invariant ⟨"tags", "/db", 0⟩
    [([1], [5]), ([1], [7]), ([2], [3])] (by decide)⟩

end Sneed
